import Mathlib

/-!
Verification development for the Markov-chain phishing email detector
(`phishingEmailDetector.py`).  The Python source is shallowly embedded:
strings become `List Char` / `String`, the two `defaultdict` chains become
insertion-ordered association lists, floats become real numbers with
`Option ℝ` encoding the `-inf` sentinel, and the regular expressions used
by `preprocess_email` / `tokenize` / `extract_features` are translated into
explicit backtracking matchers with Python `re` semantics (leftmost scan,
greedy quantifiers, word boundaries).
-/

/-! ### Character classes (Python regex classes, ASCII scope) -/

/-- Python `\w`: alphanumeric or underscore. -/
def wordChar (c : Char) : Bool := c.isAlphanum || c = '_'

/-- Python `\s`: whitespace. -/
def pySpace (c : Char) : Bool :=
  c = ' ' || c = '\t' || c = '\n' || c = '\r' || c = '\x0b' || c = '\x0c'

/-- Python `str.lower` on one character. -/
def pyLower (c : Char) : Char :=
  if 'A' ≤ c && c ≤ 'Z' then Char.ofNat (c.toNat + 32) else c

/-- Character class `[A-Za-z0-9._%+-]` (local part of the email regex). -/
def localChar (c : Char) : Bool :=
  c.isAlphanum || c = '.' || c = '_' || c = '%' || c = '+' || c = '-'

/-- Character class `[A-Za-z0-9.-]` (domain part of the email regex). -/
def domainChar (c : Char) : Bool := c.isAlphanum || c = '.' || c = '-'

/-- Character class `[A-Z|a-z]` (TLD part of the email regex; note that the
source's class literally contains the bar character). -/
def tldChar (c : Char) : Bool := c.isAlpha || c = '|'

/-- Word-character test on an optional character (ends of the string count
as non-word for `\b`). -/
def isWordO : Option Char → Bool
  | none => false
  | some c => wordChar c

/-- Does the first list occur as a prefix of the second? -/
def listStartsWith : List Char → List Char → Bool
  | [], _ => true
  | _ :: _, [] => false
  | a :: as, b :: bs => a = b && listStartsWith as bs

/-! ### The four masking regexes of `preprocess_email`

Each matcher takes the text remaining at the current scan position (plus,
where `\b` is involved, the previous original character) and returns
`some n` when a match of total length `n + 1` starts here. -/

/-- Matcher for `http[s]?://\S+`. -/
def matchUrlLen (s : List Char) : Option Nat :=
  if listStartsWith ("https://").toList s then
    let w := (s.drop 8).takeWhile (fun c => !(pySpace c))
    if w.isEmpty then none else some (8 + w.length - 1)
  else if listStartsWith ("http://").toList s then
    let w := (s.drop 7).takeWhile (fun c => !(pySpace c))
    if w.isEmpty then none else some (7 + w.length - 1)
  else none

/-- Greedy backtracking for `[A-Z|a-z]{2,}\b`: try the longest run of TLD
characters first, shrinking until the trailing word boundary holds. -/
def tryTldFrom (u : List Char) : Nat → Option Nat
  | 0 => none
  | 1 => none
  | m + 2 =>
    if isWordO (u.get? (m + 1)) != isWordO (u.get? (m + 2)) then some (m + 2)
    else tryTldFrom u (m + 1)

/-- Match `[A-Z|a-z]{2,}\b` at the head of `u`. -/
def tryTld (u : List Char) : Option Nat := tryTldFrom u ((u.takeWhile tldChar).length)

/-- Greedy backtracking for `[A-Za-z0-9.-]+\.[A-Z|a-z]{2,}\b` applied after
the `@`: the domain run is shrunk from its maximal length until a literal
dot followed by a valid TLD is found.  Returns the number of characters
consumed after the `@`. -/
def tryDomainFrom (s2 : List Char) : Nat → Option Nat
  | 0 => none
  | k + 1 =>
    match (if s2.get? (k + 1) = some '.' then tryTld (List.drop (k + 2) s2) else none) with
    | some m => some (k + 2 + m)
    | none => tryDomainFrom s2 k

/-- Matcher for `\b[A-Za-z0-9._%+-]+@[A-Za-z0-9.-]+\.[A-Z|a-z]{2,}\b`. -/
def matchEmailLen (prev : Option Char) (s : List Char) : Option Nat :=
  let r := s.takeWhile localChar
  match r with
  | [] => none
  | c0 :: _ =>
    if isWordO prev = wordChar c0 then none
    else
      match s.drop r.length with
      | '@' :: s2 =>
        match tryDomainFrom s2 ((s2.takeWhile domainChar).length) with
        | some n => some (r.length + n)
        | none => none
      | _ => none

/-- Matcher for `\$\d+(?:\.\d+)?`. -/
def matchMoneyLen (s : List Char) : Option Nat :=
  match s with
  | '$' :: rest =>
    let ds := rest.takeWhile Char.isDigit
    if ds.isEmpty then none
    else
      match rest.drop ds.length with
      | '.' :: rest2 =>
        let ds2 := rest2.takeWhile Char.isDigit
        if ds2.isEmpty then some ds.length
        else some (ds.length + 1 + ds2.length)
      | _ => some ds.length
  | _ => none

/-- Matcher for `\b\d+\b`. -/
def matchNumberLen (prev : Option Char) (s : List Char) : Option Nat :=
  if isWordO prev then none
  else
    let ds := s.takeWhile Char.isDigit
    match ds with
    | [] => none
    | _ :: _ =>
      if isWordO (s.get? ds.length) then none
      else some (ds.length - 1)

/-- Left-to-right non-overlapping substitution, as performed by `re.sub`:
at each position try the matcher; on success emit the replacement and
resume after the matched text (tracking the last original character for
later `\b` tests), otherwise copy one character.  The fuel starts at the
length of the text; every step consumes at least one character, so the
fuel never runs out before the text does. -/
def substFuel (matcher : Option Char → List Char → Option Nat) (rep : List Char) :
    Nat → Option Char → List Char → List Char
  | 0, _, s => s
  | _ + 1, _, [] => []
  | fuel + 1, prev, c :: cs =>
    match matcher prev (c :: cs) with
    | some n => rep ++ substFuel matcher rep fuel (some ((c :: cs).getD n c)) (cs.drop n)
    | none => c :: substFuel matcher rep fuel (some c) cs

/-- `re.sub(pattern, rep, s)` for one of the matchers above. -/
def pysub (matcher : Option Char → List Char → Option Nat) (rep : List Char)
    (s : List Char) : List Char :=
  substFuel matcher rep s.length none s

/-- `MarkovEmailDetector.preprocess_email`: lowercase, then mask URLs,
email addresses, money amounts and numbers, in that order. -/
def preprocess_email (text : String) : String :=
  let t0 := text.toList.map pyLower
  let t1 := pysub (fun _ s => matchUrlLen s) ("<URL>").toList t0
  let t2 := pysub matchEmailLen ("<EMAIL>").toList t1
  let t3 := pysub (fun _ s => matchMoneyLen s) ("<MONEY>").toList t2
  String.mk (pysub matchNumberLen ("<NUMBER>").toList t3)

/-- Scanner for `re.findall(r'\w+|[^\w\s]', text)`: maximal word runs are
single tokens, every other non-whitespace character is its own token and
whitespace only separates.  `acc` holds the (reversed) word run in
progress. -/
def tokAux : List Char → List Char → List String
  | acc, [] => (match acc with | [] => [] | _ :: _ => [String.mk acc.reverse])
  | acc, c :: cs =>
    if wordChar c then tokAux (c :: acc) cs
    else
      (match acc with | [] => [] | _ :: _ => [String.mk acc.reverse]) ++
        (if pySpace c then tokAux [] cs else String.mk [c] :: tokAux [] cs)

/-- `MarkovEmailDetector.tokenize`. -/
def tokenize (text : String) : List String := tokAux [] text.toList

/-- Preprocessing followed by tokenization (the spec's `normalize`; named
`normalizeEmail` here to avoid clashing with Mathlib's `normalize`). -/
def normalizeEmail (email : String) : List String := tokenize (preprocess_email email)

/-! ### The two chains: `defaultdict(lambda: defaultdict(int))`

Python dicts are insertion-ordered maps; they are embedded as association
lists where fresh keys are appended at the end. -/

/-- NextMap map: next token → occurrence count. -/
abbrev NextMap : Type := List (String × Nat)

/-- A Markov chain: context (token tuple) → inner map. -/
abbrev MarkovChain : Type := List (List String × NextMap)

/-- First-occurrence lookup in an inner map. -/
def innerLookup : NextMap → String → Option Nat
  | [], _ => none
  | (k, v) :: r, t => if k = t then some v else innerLookup r t

/-- `inner[t] += 1` with `defaultdict(int)` semantics: a missing key is
created with value `0` and then incremented, i.e. appended as `(t, 1)`. -/
def innerIncr : NextMap → String → NextMap
  | [], t => [(t, 1)]
  | (k, v) :: r, t => if k = t then (k, v + 1) :: r else (k, v) :: innerIncr r t

/-- First-occurrence lookup of a context. -/
def chainLookup : MarkovChain → List String → Option NextMap
  | [], _ => none
  | (k, inner) :: r, st => if k = st then some inner else chainLookup r st

/-- `chain[state][next] += 1` with nested-`defaultdict` semantics. -/
def chainIncr : MarkovChain → List String → String → MarkovChain
  | [], st, t => [(st, [(t, 1)])]
  | (k, inner) :: r, st, t =>
    if k = st then (k, innerIncr inner t) :: r else (k, inner) :: chainIncr r st t

/-- `sum(chain[state].values())`. -/
def innerTotal (inner : NextMap) : Nat := (inner.map Prod.snd).sum

/-- `state in chain`. -/
def hasState (ch : MarkovChain) (st : List String) : Bool := (chainLookup ch st).isSome

/-- `chain[state]` on the outer `defaultdict`: reading a missing key
auto-inserts an empty inner map (appended at the end). -/
def dd_get (ch : MarkovChain) (st : List String) : MarkovChain × NextMap :=
  match chainLookup ch st with
  | some inner => (ch, inner)
  | none => (ch ++ [(st, [])], [])

/-- `tuple(tokens[i:i + order])`. -/
def window (order : Nat) (tokens : List String) (i : Nat) : List String :=
  (tokens.drop i).take order

/-- `MarkovEmailDetector.build_chain`: for every sliding window, count the
token that follows it. -/
def build_chain (order : Nat) (tokens : List String) (chain : MarkovChain) : MarkovChain :=
  (List.range (tokens.length - order)).foldl
    (fun ch i => chainIncr ch (window order tokens i) (tokens.getD (i + order) "")) chain

/-- Count held by a chain for a (context, next-token) pair (0 if absent). -/
def countOf (ch : MarkovChain) (ctx : List String) (t : String) : Nat :=
  match chainLookup ch ctx with
  | some inner => (innerLookup inner t).getD 0
  | none => 0

/-- Total count of a context (0 if absent). -/
def totalOf (ch : MarkovChain) (ctx : List String) : Nat :=
  match chainLookup ch ctx with
  | some inner => innerTotal inner
  | none => 0

/-- Well-formedness of an inner map: nonempty, keys distinct, counts ≥ 1. -/
def innerWF (inner : NextMap) : Prop :=
  inner ≠ [] ∧ (inner.map Prod.fst).Nodup ∧ ∀ q ∈ inner, 1 ≤ q.2

/-- Well-formedness of a chain: contexts distinct, all inner maps WF. -/
def chainWF (ch : MarkovChain) : Prop :=
  (ch.map Prod.fst).Nodup ∧ ∀ p ∈ ch, innerWF p.2

instance : DecidablePred innerWF := fun inner => by
  unfold innerWF; infer_instance

instance : DecidablePred chainWF := fun ch => by
  unfold chainWF; infer_instance

/-! ### Scoring (`calculate_log_probability`)

Floats are modelled as exact reals; `float('-inf')` becomes `none`.
The per-window step mirrors the Python expression
`if state in chain and next_token in chain[state]` with every read of
`chain[state]` going through the auto-inserting `dd_get`, so that the
absence of model growth during scoring is a provable fact rather than an
artifact of the embedding. -/

/-- The fixed unseen-pattern penalty probability `1e-10`. -/
noncomputable def penalty : ℝ := 1e-10

/-- One iteration of the scoring loop: the resulting chain and log term. -/
noncomputable def scoreStep (order : Nat) (tokens : List String) (ch : MarkovChain) (i : Nat) :
    MarkovChain × ℝ :=
  let state := window order tokens i
  let next_token := tokens.getD (i + order) ""
  if hasState ch state then
    let p1 := dd_get ch state
    if (innerLookup p1.2 next_token).isSome then
      let p2 := dd_get p1.1 state
      let total := innerTotal p2.2
      let p3 := dd_get p2.1 state
      let cnt := (innerLookup p3.2 next_token).getD 0
      (p3.1, Real.log ((cnt : ℝ) / (total : ℝ)))
    else (p1.1, Real.log penalty)
  else (ch, Real.log penalty)

/-- The scoring loop over a list of window indices, threading the chain. -/
noncomputable def calcSteps (order : Nat) (tokens : List String) :
    List Nat → MarkovChain → MarkovChain × ℝ
  | [], ch => (ch, 0)
  | i :: is, ch =>
    let p := scoreStep order tokens ch i
    let rest := calcSteps order tokens is p.1
    (rest.1, p.2 + rest.2)

/-- `MarkovEmailDetector.calculate_log_probability`; `none` is `-inf`. -/
noncomputable def calculate_log_probability (order : Nat) (tokens : List String)
    (ch : MarkovChain) : MarkovChain × Option ℝ :=
  if tokens.length < order + 1 then (ch, none)
  else
    let p := calcSteps order tokens (List.range (tokens.length - order)) ch
    (p.1, some p.2)

/-! ### Feature extraction (`extract_features`) -/

/-- Python substring containment (`needle in hay`). -/
def containsSub : List Char → List Char → Bool
  | [], needle => needle.isEmpty
  | h :: t, needle => listStartsWith needle (h :: t) || containsSub t needle

/-- `re.findall(r'http[s]?://\S+', s)`, fuelled like `substFuel`. -/
def findUrlsFuel : Nat → List Char → List String
  | 0, _ => []
  | _ + 1, [] => []
  | fuel + 1, c :: cs =>
    match matchUrlLen (c :: cs) with
    | some n => String.mk ((c :: cs).take (n + 1)) :: findUrlsFuel fuel (cs.drop n)
    | none => findUrlsFuel fuel cs

def findUrls (s : List Char) : List String := findUrlsFuel s.length s

def urgency_words : List String :=
  ["urgent", "immediate", "act now", "expire", "suspended",
   "verify", "confirm", "update", "security alert"]

def suspicious_domains : List String := [".tk", ".ml", ".ga", "bit.ly", "tinyurl"]

def personal_info : List String :=
  ["password", "ssn", "social security", "credit card",
   "account number", "pin", "banking"]

def misspellings : List String := ["recieve", "seperate", "occured", "privilage"]

/-- `MarkovEmailDetector.extract_features`. -/
def extract_features (email : String) : List String :=
  let text_lower := email.toList.map pyLower
  let f1 := (urgency_words.filter (fun w => containsSub text_lower w.toList)).map
    (fun w => "Urgency keyword: \x27" ++ w ++ "\x27")
  let urls := findUrls email.toList
  let f2 := if urls.length > 2 then ["Multiple URLs (" ++ toString urls.length ++ ")"] else []
  let f3 := urls.flatMap (fun u =>
    (suspicious_domains.filter (fun d => containsSub u.toList d.toList)).map
      (fun d => "Suspicious domain: " ++ d))
  let f4 := (personal_info.filter (fun w => containsSub text_lower w.toList)).map
    (fun w => "Requests sensitive info: \x27" ++ w ++ "\x27")
  let f5 := if containsSub text_lower ("dear customer").toList
      || containsSub text_lower ("dear user").toList
      || containsSub text_lower ("dear member").toList
    then ["Generic greeting (no name)"] else []
  let f6 := (misspellings.filter (fun w => containsSub text_lower w.toList)).map
    (fun w => "Possible typo: \x27" ++ w ++ "\x27")
  f1 ++ f2 ++ f3 ++ f4 ++ f5 ++ f6

/-! ### The classifier (`MarkovEmailDetector` object state and methods) -/

/-- The mutable attributes of a `MarkovEmailDetector` instance. -/
structure DetectorState where
  order : Nat
  legitimate_chain : MarkovChain
  phishing_chain : MarkovChain
  legitimate_count : Nat
  phishing_count : Nat
  trained : Bool

/-- `MarkovEmailDetector.__init__`. -/
def newDetector (order : Nat) : DetectorState :=
  { order := order, legitimate_chain := [], phishing_chain := [],
    legitimate_count := 0, phishing_count := 0, trained := false }

/-- `MarkovEmailDetector.train_legitimate` (console output dropped). -/
def train_legitimate (st : DetectorState) (emails : List String) : DetectorState :=
  emails.foldl
    (fun s e =>
      { s with
        legitimate_chain := build_chain s.order (normalizeEmail e) s.legitimate_chain,
        legitimate_count := s.legitimate_count + 1 })
    st

/-- `MarkovEmailDetector.train_phishing`: like `train_legitimate` on the
phishing chain, then sets `trained := true` unconditionally. -/
def train_phishing (st : DetectorState) (emails : List String) : DetectorState :=
  let st1 := emails.foldl
    (fun s e =>
      { s with
        phishing_chain := build_chain s.order (normalizeEmail e) s.phishing_chain,
        phishing_count := s.phishing_count + 1 })
    st
  { st1 with trained := true }

/-- The dictionary returned by a successful `detect` call. -/
structure DetectResult where
  is_phishing : Bool
  confidence : ℝ
  legitimate_score : Option ℝ
  phishing_score : Option ℝ
  suspicious_features : List String
  verdict : String

/-- `max(legit_score, phishing_score)` with `-inf` as `none` (the both-
`none` case is unreachable in `detect`). -/
def maxScore : Option ℝ → Option ℝ → ℝ
  | some a, some b => max a b
  | some a, none => a
  | none, some b => b
  | none, none => 0

/-- `math.exp(score - max_score)`: `exp(-inf - m) = 0.0`. -/
noncomputable def expShift (s : Option ℝ) (m : ℝ) : ℝ :=
  match s with
  | none => 0
  | some x => Real.exp (x - m)

/-- The softmax phishing probability computed in `detect`'s else-branch. -/
noncomputable def softmaxConf (ls ps : Option ℝ) : ℝ :=
  expShift ps (maxScore ls ps) / (expShift ls (maxScore ls ps) + expShift ps (maxScore ls ps))

/-- `phishing_score > legit_score` on IEEE floats with `-inf` as `none`. -/
def scoreGT : Option ℝ → Option ℝ → Prop
  | some a, some b => b < a
  | some _, none => True
  | none, _ => False

open Classical

/-- The result record built by a trained `detect` call. -/
noncomputable def mkResult (st : DetectorState) (email : String) : DetectResult :=
  let tokens := normalizeEmail email
  let legit_score := (calculate_log_probability st.order tokens st.legitimate_chain).2
  let phishing_score := (calculate_log_probability st.order tokens st.phishing_chain).2
  let bothInf := legit_score.isNone && phishing_score.isNone
  let confidence : ℝ := if bothInf then 0.5 else softmaxConf legit_score phishing_score
  let isPh : Bool :=
    if bothInf then false
    else if scoreGT phishing_score legit_score then true else false
  { is_phishing := isPh
    confidence := confidence * 100
    legitimate_score := legit_score
    phishing_score := phishing_score
    suspicious_features := extract_features email
    verdict := if isPh then "PHISHING" else "LEGITIMATE" }

/-- `MarkovEmailDetector.detect`: `none` models the
`{"error": "Model not trained"}` early return; otherwise the state after
the two (read-only) scoring passes is returned together with the result. -/
noncomputable def detect (st : DetectorState) (email : String) :
    DetectorState × Option DetectResult :=
  if st.trained then
    ({ st with
        legitimate_chain :=
          (calculate_log_probability st.order (normalizeEmail email) st.legitimate_chain).1,
        phishing_chain :=
          (calculate_log_probability st.order (normalizeEmail email) st.phishing_chain).1 },
     some (mkResult st email))
  else (st, none)

/-! ### Sequences of API calls on one classifier instance -/

/-- One public call on a classifier. -/
inductive TrainOp where
  | legit (emails : List String)
  | phish (emails : List String)
  | det (email : String)

/-- Run a sequence of calls (a `detect` call keeps only its state). -/
noncomputable def runOps (st : DetectorState) : List TrainOp → DetectorState
  | [] => st
  | TrainOp.legit es :: rest => runOps (train_legitimate st es) rest
  | TrainOp.phish es :: rest => runOps (train_phishing st es) rest
  | TrainOp.det e :: rest => runOps (detect st e).1 rest

/-- Is the call a `train_phishing` call? -/
def isPhishOp : TrainOp → Bool
  | TrainOp.phish _ => true
  | _ => false

/-- The legitimate-training corpus fed by a call sequence, in order. -/
def legitEmails : List TrainOp → List String
  | [] => []
  | TrainOp.legit es :: rest => es ++ legitEmails rest
  | _ :: rest => legitEmails rest

/-- The phishing-training corpus fed by a call sequence, in order. -/
def phishEmails : List TrainOp → List String
  | [] => []
  | TrainOp.phish es :: rest => es ++ phishEmails rest
  | _ :: rest => phishEmails rest

/-- Number of windows of one token sequence whose context is `ctx` and
whose next token is `t`. -/
def pairObs (order : Nat) (tokens : List String) (ctx : List String) (t : String) : Nat :=
  (List.range (tokens.length - order)).countP
    (fun i => decide (window order tokens i = ctx ∧ tokens.getD (i + order) "" = t))

/-- Number of windows of one token sequence whose context is `ctx`. -/
def ctxObs (order : Nat) (tokens : List String) (ctx : List String) : Nat :=
  (List.range (tokens.length - order)).countP
    (fun i => decide (window order tokens i = ctx))

/-- Total number of training-time observations of context `ctx` over a
corpus of raw emails. -/
def obsTotal (order : Nat) (emails : List String) (ctx : List String) : Nat :=
  (emails.map (fun e => ctxObs order (normalizeEmail e) ctx)).sum

/-- Total number of training-time observations of a (context, next) pair
over a corpus of raw emails. -/
def obsPair (order : Nat) (emails : List String) (ctx : List String) (t : String) : Nat :=
  (emails.map (fun e => pairObs order (normalizeEmail e) ctx t)).sum

/-! ### Counting algebra for the association-list chains -/

lemma innerLookup_incr (inner : NextMap) (t t' : String) :
    (innerLookup (innerIncr inner t) t').getD 0
      = (innerLookup inner t').getD 0 + (if t = t' then 1 else 0) := by
  induction inner with
  | nil =>
    by_cases h : t = t' <;> simp [innerIncr, innerLookup, h]
  | cons q r ih =>
    obtain ⟨k, v⟩ := q
    by_cases hk : k = t
    · subst hk
      by_cases h : k = t' <;> simp [innerIncr, innerLookup, h]
    · by_cases h : k = t'
      · subst h
        have : ¬ t = k := fun hc => hk hc.symm
        simp [innerIncr, innerLookup, hk, this]
      · simp [innerIncr, innerLookup, hk, h, ih]

lemma innerTotal_incr (inner : NextMap) (t : String) :
    innerTotal (innerIncr inner t) = innerTotal inner + 1 := by
  induction inner with
  | nil => simp [innerIncr, innerTotal]
  | cons q r ih =>
    obtain ⟨k, v⟩ := q
    by_cases hk : k = t
    · simp [innerIncr, hk, innerTotal]
      omega
    · simp [innerIncr, hk, innerTotal] at ih ⊢
      omega

lemma chainLookup_incr (ch : MarkovChain) (c : List String) (t : String) (c' : List String) :
    chainLookup (chainIncr ch c t) c'
      = if c = c' then some (innerIncr ((chainLookup ch c').getD []) t)
        else chainLookup ch c' := by
  induction ch with
  | nil =>
    by_cases h : c = c' <;> simp [chainIncr, chainLookup, innerIncr, h]
  | cons p r ih =>
    obtain ⟨k, inner⟩ := p
    by_cases hk : k = c
    · subst hk
      by_cases h : k = c' <;> simp [chainIncr, chainLookup, h]
    · by_cases h : k = c'
      · subst h
        have : ¬ c = k := fun hc => hk hc.symm
        simp [chainIncr, chainLookup, hk, this]
      · simp [chainIncr, chainLookup, hk, h, ih]

lemma countOf_incr (ch : MarkovChain) (c : List String) (t : String)
    (c' : List String) (t' : String) :
    countOf (chainIncr ch c t) c' t'
      = countOf ch c' t' + (if c = c' ∧ t = t' then 1 else 0) := by
  unfold countOf
  rw [chainLookup_incr]
  by_cases hc : c = c'
  · subst hc
    rw [if_pos rfl]
    cases h : chainLookup ch c with
    | none =>
      simp only [h, Option.getD_none, innerLookup_incr]
      simp [innerLookup]
    | some inner =>
      simp only [h, Option.getD_some, innerLookup_incr]
      simp
  · rw [if_neg hc]
    have : ¬ (c = c' ∧ t = t') := fun hct => hc hct.1
    cases h : chainLookup ch c' <;> simp [this]

lemma totalOf_incr (ch : MarkovChain) (c : List String) (t : String) (c' : List String) :
    totalOf (chainIncr ch c t) c' = totalOf ch c' + (if c = c' then 1 else 0) := by
  unfold totalOf
  rw [chainLookup_incr]
  by_cases hc : c = c'
  · subst hc
    rw [if_pos rfl]
    cases h : chainLookup ch c with
    | none => simp [innerTotal_incr, innerTotal, innerIncr]
    | some inner => simp [innerTotal_incr]
  · rw [if_neg hc, if_neg hc]
    cases h : chainLookup ch c' <;> simp

/-! ### Folding the counting algebra over training windows -/

lemma countOf_foldIncr (f : Nat → List String) (g : Nat → String) (l : List Nat)
    (ch : MarkovChain) (c : List String) (t : String) :
    countOf (l.foldl (fun a i => chainIncr a (f i) (g i)) ch) c t
      = countOf ch c t + l.countP (fun i => decide (f i = c ∧ g i = t)) := by
  induction l generalizing ch with
  | nil => simp
  | cons i is ih =>
    rw [List.foldl_cons, ih, countOf_incr, List.countP_cons]
    by_cases h : f i = c ∧ g i = t <;> simp [h] <;> omega

lemma totalOf_foldIncr (f : Nat → List String) (g : Nat → String) (l : List Nat)
    (ch : MarkovChain) (c : List String) :
    totalOf (l.foldl (fun a i => chainIncr a (f i) (g i)) ch) c
      = totalOf ch c + l.countP (fun i => decide (f i = c)) := by
  induction l generalizing ch with
  | nil => simp
  | cons i is ih =>
    rw [List.foldl_cons, ih, totalOf_incr, List.countP_cons]
    by_cases h : f i = c <;> simp [h] <;> omega

lemma countOf_build_chain (order : Nat) (tokens : List String) (ch : MarkovChain)
    (c : List String) (t : String) :
    countOf (build_chain order tokens ch) c t = countOf ch c t + pairObs order tokens c t := by
  unfold build_chain pairObs
  exact countOf_foldIncr _ _ _ ch c t

lemma totalOf_build_chain (order : Nat) (tokens : List String) (ch : MarkovChain)
    (c : List String) :
    totalOf (build_chain order tokens ch) c = totalOf ch c + ctxObs order tokens c := by
  unfold build_chain ctxObs
  exact totalOf_foldIncr _ _ _ ch c

lemma countOf_trainFold (order : Nat) (emails : List String) (ch : MarkovChain)
    (c : List String) (t : String) :
    countOf (emails.foldl (fun a e => build_chain order (normalizeEmail e) a) ch) c t
      = countOf ch c t + obsPair order emails c t := by
  induction emails generalizing ch with
  | nil => simp [obsPair]
  | cons e es ih =>
    rw [List.foldl_cons, ih, countOf_build_chain]
    simp [obsPair]
    omega

lemma totalOf_trainFold (order : Nat) (emails : List String) (ch : MarkovChain)
    (c : List String) :
    totalOf (emails.foldl (fun a e => build_chain order (normalizeEmail e) a) ch) c
      = totalOf ch c + obsTotal order emails c := by
  induction emails generalizing ch with
  | nil => simp [obsTotal]
  | cons e es ih =>
    rw [List.foldl_cons, ih, totalOf_build_chain]
    simp [obsTotal]
    omega

/-! ### Well-formedness is preserved by training -/

lemma innerLookup_cons_self (k : String) (v : Nat) (r : NextMap) :
    innerLookup ((k, v) :: r) k = some v := by
  simp [innerLookup]

lemma innerLookup_cons_ne (k t : String) (v : Nat) (r : NextMap) (hk : k ≠ t) :
    innerLookup ((k, v) :: r) t = innerLookup r t := by
  simp [innerLookup, hk]

lemma chainLookup_cons_self (k : List String) (m : NextMap) (r : MarkovChain) :
    chainLookup ((k, m) :: r) k = some m := by
  simp [chainLookup]

lemma chainLookup_cons_ne (k c : List String) (m : NextMap) (r : MarkovChain)
    (hk : k ≠ c) : chainLookup ((k, m) :: r) c = chainLookup r c := by
  simp [chainLookup, hk]

lemma innerLookup_none_notMem (inner : NextMap) (t : String) :
    innerLookup inner t = none → t ∉ inner.map Prod.fst := by
  induction inner with
  | nil => simp
  | cons q r ih =>
    obtain ⟨k, v⟩ := q
    intro h hmem
    by_cases hk : k = t
    · subst hk
      rw [innerLookup_cons_self] at h
      exact Option.noConfusion h
    · rw [innerLookup_cons_ne _ _ _ _ hk] at h
      simp only [List.map_cons, List.mem_cons] at hmem
      rcases hmem with h1 | h2
      · exact hk h1.symm
      · exact ih h h2

lemma innerLookup_mem (inner : NextMap) (t : String) (v : Nat) :
    innerLookup inner t = some v → (t, v) ∈ inner := by
  induction inner with
  | nil => intro h; exact Option.noConfusion h
  | cons q r ih =>
    obtain ⟨k, w⟩ := q
    intro h
    by_cases hk : k = t
    · subst hk
      rw [innerLookup_cons_self] at h
      injection h with h2
      subst h2
      exact List.mem_cons_self _ _
    · rw [innerLookup_cons_ne _ _ _ _ hk] at h
      exact List.mem_cons_of_mem _ (ih h)

lemma chainLookup_none_notMem (ch : MarkovChain) (c : List String) :
    chainLookup ch c = none → c ∉ ch.map Prod.fst := by
  induction ch with
  | nil => simp
  | cons p r ih =>
    obtain ⟨k, m⟩ := p
    intro h hmem
    by_cases hk : k = c
    · subst hk
      rw [chainLookup_cons_self] at h
      exact Option.noConfusion h
    · rw [chainLookup_cons_ne _ _ _ _ hk] at h
      simp only [List.map_cons, List.mem_cons] at hmem
      rcases hmem with h1 | h2
      · exact hk h1.symm
      · exact ih h h2

lemma chainLookup_mem (ch : MarkovChain) (c : List String) (inner : NextMap) :
    chainLookup ch c = some inner → (c, inner) ∈ ch := by
  induction ch with
  | nil => intro h; exact Option.noConfusion h
  | cons p r ih =>
    obtain ⟨k, m⟩ := p
    intro h
    by_cases hk : k = c
    · subst hk
      rw [chainLookup_cons_self] at h
      injection h with h2
      subst h2
      exact List.mem_cons_self _ _
    · rw [chainLookup_cons_ne _ _ _ _ hk] at h
      exact List.mem_cons_of_mem _ (ih h)

lemma innerIncr_keys (inner : NextMap) (t : String) :
    (innerIncr inner t).map Prod.fst
      = if (innerLookup inner t).isSome then inner.map Prod.fst
        else inner.map Prod.fst ++ [t] := by
  induction inner with
  | nil => simp [innerIncr, innerLookup]
  | cons q r ih =>
    obtain ⟨k, v⟩ := q
    by_cases hk : k = t
    · simp [innerIncr, innerLookup, hk]
    · simp only [innerIncr, if_neg hk, innerLookup, List.map_cons, ih]
      by_cases h : (innerLookup r t).isSome <;> simp [h, hk]

lemma innerIncr_counts (inner : NextMap) (t : String)
    (h : ∀ q ∈ inner, 1 ≤ q.2) : ∀ q ∈ innerIncr inner t, 1 ≤ q.2 := by
  induction inner with
  | nil => simp [innerIncr]
  | cons q0 r ih =>
    obtain ⟨k, v⟩ := q0
    by_cases hk : k = t
    · simp only [innerIncr, if_pos hk]
      intro q hq
      rcases List.mem_cons.1 hq with h1 | h2
      · subst h1; omega
      · exact h _ (List.mem_cons_of_mem _ h2)
    · simp only [innerIncr, if_neg hk]
      intro q hq
      rcases List.mem_cons.1 hq with h1 | h2
      · subst h1
        exact h _ (List.mem_cons_self _ _)
      · exact ih (fun q hq2 => h _ (List.mem_cons_of_mem _ hq2)) _ h2

lemma innerIncr_ne_nil (inner : NextMap) (t : String) : innerIncr inner t ≠ [] := by
  cases inner with
  | nil => simp [innerIncr]
  | cons q r =>
    obtain ⟨k, v⟩ := q
    by_cases hk : k = t <;> simp [innerIncr, hk]

lemma innerWF_incr (inner : NextMap) (t : String)
    (hnd : (inner.map Prod.fst).Nodup) (hc : ∀ q ∈ inner, 1 ≤ q.2) :
    innerWF (innerIncr inner t) := by
  refine ⟨innerIncr_ne_nil inner t, ?_, innerIncr_counts inner t hc⟩
  rw [innerIncr_keys]
  by_cases h : (innerLookup inner t).isSome
  · simpa [h] using hnd
  · have hnone : innerLookup inner t = none := by
      cases hl : innerLookup inner t
      · rfl
      · simp [hl] at h
    have := innerLookup_none_notMem inner t hnone
    simp only [if_neg (by simp [h] : ¬ (innerLookup inner t).isSome = true)]
    simp [List.nodup_append, hnd, this]

lemma chainIncr_keys (ch : MarkovChain) (c : List String) (t : String) :
    (chainIncr ch c t).map Prod.fst
      = if (chainLookup ch c).isSome then ch.map Prod.fst
        else ch.map Prod.fst ++ [c] := by
  induction ch with
  | nil => simp [chainIncr, chainLookup]
  | cons p r ih =>
    obtain ⟨k, inner⟩ := p
    by_cases hk : k = c
    · simp [chainIncr, chainLookup, hk]
    · simp only [chainIncr, if_neg hk, chainLookup, List.map_cons, ih]
      by_cases h : (chainLookup r c).isSome <;> simp [h, hk]

lemma chainWF_incr (ch : MarkovChain) (c : List String) (t : String)
    (h : chainWF ch) : chainWF (chainIncr ch c t) := by
  induction ch with
  | nil =>
    refine ⟨by simp [chainIncr], ?_⟩
    intro p hp
    simp only [chainIncr, List.mem_singleton] at hp
    subst hp
    exact ⟨by simp, by simp, by simp⟩
  | cons p0 r ih =>
    obtain ⟨k, inner⟩ := p0
    obtain ⟨hnd, hmem⟩ := h
    rw [List.map_cons, List.nodup_cons] at hnd
    obtain ⟨hknot, hndr⟩ := hnd
    have hmemr : ∀ p ∈ r, innerWF p.2 := fun p hp => hmem _ (List.mem_cons_of_mem _ hp)
    by_cases hk : k = c
    · subst hk
      have hre : chainIncr ((k, inner) :: r) k t = (k, innerIncr inner t) :: r := by
        simp [chainIncr]
      rw [hre]
      constructor
      · rw [List.map_cons, List.nodup_cons]
        exact ⟨hknot, hndr⟩
      · intro p hp
        rcases List.mem_cons.1 hp with h1 | h2
        · subst h1
          have hw : innerWF inner := hmem _ (List.mem_cons_self _ _)
          exact innerWF_incr inner t hw.2.1 hw.2.2
        · exact hmemr _ h2
    · have hre : chainIncr ((k, inner) :: r) c t = (k, inner) :: chainIncr r c t := by
        simp [chainIncr, hk]
      rw [hre]
      obtain ⟨ihnd, ihmem⟩ := ih ⟨hndr, hmemr⟩
      constructor
      · rw [List.map_cons, List.nodup_cons]
        refine ⟨?_, ihnd⟩
        rw [chainIncr_keys]
        by_cases hl : (chainLookup r c).isSome
        · simpa [hl] using hknot
        · simp only [Bool.not_eq_true] at hl
          simp [hl, hknot, hk]
      · intro p hp
        rcases List.mem_cons.1 hp with h1 | h2
        · subst h1
          exact hmem _ (List.mem_cons_self _ _)
        · exact ihmem _ h2

lemma chainWF_build_chain (order : Nat) (tokens : List String) (ch : MarkovChain)
    (h : chainWF ch) : chainWF (build_chain order tokens ch) := by
  unfold build_chain
  generalize List.range (tokens.length - order) = l
  induction l generalizing ch with
  | nil => exact h
  | cons i is ih => exact ih _ (chainWF_incr _ _ _ h)

lemma chainWF_trainFold (order : Nat) (emails : List String) (ch : MarkovChain)
    (h : chainWF ch) :
    chainWF (emails.foldl (fun a e => build_chain order (normalizeEmail e) a) ch) := by
  induction emails generalizing ch with
  | nil => exact h
  | cons e es ih => exact ih _ (chainWF_build_chain _ _ _ h)

/-! ### Characterization of the training methods, field by field -/

lemma train_legitimate_order (st : DetectorState) (es : List String) :
    (train_legitimate st es).order = st.order := by
  unfold train_legitimate
  induction es generalizing st with
  | nil => rfl
  | cons e es ih => rw [List.foldl_cons, ih]

lemma train_legitimate_trained (st : DetectorState) (es : List String) :
    (train_legitimate st es).trained = st.trained := by
  unfold train_legitimate
  induction es generalizing st with
  | nil => rfl
  | cons e es ih => rw [List.foldl_cons, ih]

lemma train_legitimate_phishing_chain (st : DetectorState) (es : List String) :
    (train_legitimate st es).phishing_chain = st.phishing_chain := by
  unfold train_legitimate
  induction es generalizing st with
  | nil => rfl
  | cons e es ih => rw [List.foldl_cons, ih]

lemma train_legitimate_chain (st : DetectorState) (es : List String) :
    (train_legitimate st es).legitimate_chain
      = es.foldl (fun ch e => build_chain st.order (normalizeEmail e) ch)
          st.legitimate_chain := by
  unfold train_legitimate
  induction es generalizing st with
  | nil => rfl
  | cons e es ih => rw [List.foldl_cons, ih, List.foldl_cons]

lemma train_phishing_order (st : DetectorState) (es : List String) :
    (train_phishing st es).order = st.order := by
  unfold train_phishing
  induction es generalizing st with
  | nil => rfl
  | cons e es ih => rw [List.foldl_cons]; exact ih _

lemma train_phishing_trained (st : DetectorState) (es : List String) :
    (train_phishing st es).trained = true := rfl

lemma train_phishing_legitimate_chain (st : DetectorState) (es : List String) :
    (train_phishing st es).legitimate_chain = st.legitimate_chain := by
  unfold train_phishing
  induction es generalizing st with
  | nil => rfl
  | cons e es ih => rw [List.foldl_cons]; exact ih _

lemma train_phishing_chain (st : DetectorState) (es : List String) :
    (train_phishing st es).phishing_chain
      = es.foldl (fun ch e => build_chain st.order (normalizeEmail e) ch)
          st.phishing_chain := by
  unfold train_phishing
  induction es generalizing st with
  | nil => rfl
  | cons e es ih => rw [List.foldl_cons, ih, List.foldl_cons]

/-! ### Scoring reads but never writes the chains -/

lemma scoreStep_fst (order : Nat) (tokens : List String) (ch : MarkovChain) (i : Nat) :
    (scoreStep order tokens ch i).1 = ch := by
  unfold scoreStep
  cases hl : chainLookup ch (window order tokens i) with
  | none =>
    rw [if_neg]
    simp [hasState, hl]
  | some inner =>
    rw [if_pos (by simp [hasState, hl])]
    simp only [dd_get, hl]
    split <;> rfl

lemma scoreStep_snd_of_none (order : Nat) (tokens : List String) (ch : MarkovChain)
    (i : Nat) (hl : chainLookup ch (window order tokens i) = none) :
    (scoreStep order tokens ch i).2 = Real.log penalty := by
  unfold scoreStep
  rw [if_neg]
  simp [hasState, hl]

lemma scoreStep_snd_of_miss (order : Nat) (tokens : List String) (ch : MarkovChain)
    (i : Nat) (inner : NextMap)
    (hl : chainLookup ch (window order tokens i) = some inner)
    (hv : innerLookup inner (tokens.getD (i + order) "") = none) :
    (scoreStep order tokens ch i).2 = Real.log penalty := by
  unfold scoreStep
  rw [if_pos (by simp [hasState, hl])]
  have hv2 : innerLookup inner (tokens[i + order]?.getD "") = none := by simpa using hv
  simp [dd_get, hl, hv2]

lemma scoreStep_snd_of_hit (order : Nat) (tokens : List String) (ch : MarkovChain)
    (i : Nat) (inner : NextMap) (v : Nat)
    (hl : chainLookup ch (window order tokens i) = some inner)
    (hv : innerLookup inner (tokens.getD (i + order) "") = some v) :
    (scoreStep order tokens ch i).2
      = Real.log ((v : ℝ) / (innerTotal inner : ℝ)) := by
  unfold scoreStep
  rw [if_pos (by simp [hasState, hl])]
  have hv2 : innerLookup inner (tokens[i + order]?.getD "") = some v := by simpa using hv
  simp [dd_get, hl, hv2]

lemma calcSteps_fst (order : Nat) (tokens : List String) (l : List Nat) (ch : MarkovChain) :
    (calcSteps order tokens l ch).1 = ch := by
  induction l generalizing ch with
  | nil => rfl
  | cons i is ih => simp [calcSteps, scoreStep_fst, ih]

lemma calcSteps_snd (order : Nat) (tokens : List String) (l : List Nat) (ch : MarkovChain) :
    (calcSteps order tokens l ch).2
      = (l.map (fun i => (scoreStep order tokens ch i).2)).sum := by
  induction l generalizing ch with
  | nil => rfl
  | cons i is ih => simp [calcSteps, scoreStep_fst, ih]

lemma calculate_fst (order : Nat) (tokens : List String) (ch : MarkovChain) :
    (calculate_log_probability order tokens ch).1 = ch := by
  unfold calculate_log_probability
  by_cases h : tokens.length < order + 1
  · simp [h]
  · simp [h, calcSteps_fst]

lemma score_none_iff (order : Nat) (tokens : List String) (ch : MarkovChain) :
    (calculate_log_probability order tokens ch).2 = none ↔ tokens.length < order + 1 := by
  unfold calculate_log_probability
  by_cases h : tokens.length < order + 1
  · simp [h]
  · simp [h]

lemma score_some (order : Nat) (tokens : List String) (ch : MarkovChain)
    (h : ¬ tokens.length < order + 1) :
    (calculate_log_probability order tokens ch).2
      = some (((List.range (tokens.length - order)).map
          (fun i => (scoreStep order tokens ch i).2)).sum) := by
  unfold calculate_log_probability
  simp [h, calcSteps_snd]

lemma detect_fst (st : DetectorState) (e : String) : (detect st e).1 = st := by
  obtain ⟨o, lc, pc, lcnt, pcnt, tr⟩ := st
  unfold detect
  cases tr <;> simp [calculate_fst]

/-! ### Nonpositivity of log scores -/

lemma penalty_pos : 0 < penalty := by unfold penalty; norm_num

lemma penalty_le_one : penalty ≤ 1 := by unfold penalty; norm_num

lemma list_sum_nonpos (l : List ℝ) (h : ∀ x ∈ l, x ≤ 0) : l.sum ≤ 0 := by
  induction l with
  | nil => simp
  | cons a r ih =>
    rw [List.sum_cons]
    have := h a (List.mem_cons_self _ _)
    have := ih (fun x hx => h x (List.mem_cons_of_mem _ hx))
    linarith

lemma scoreStep_snd_nonpos (order : Nat) (tokens : List String) (ch : MarkovChain)
    (i : Nat) (hwf : chainWF ch) : (scoreStep order tokens ch i).2 ≤ 0 := by
  have hpen : Real.log penalty ≤ 0 :=
    Real.log_nonpos (le_of_lt penalty_pos) penalty_le_one
  cases hl : chainLookup ch (window order tokens i) with
  | none => rw [scoreStep_snd_of_none order tokens ch i hl]; exact hpen
  | some inner =>
    cases hv : innerLookup inner (tokens.getD (i + order) "") with
    | none => rw [scoreStep_snd_of_miss order tokens ch i inner hl hv]; exact hpen
    | some v =>
      rw [scoreStep_snd_of_hit order tokens ch i inner v hl hv]
      have hmem : (tokens.getD (i + order) "", v) ∈ inner := innerLookup_mem _ _ _ hv
      have hwfInner : innerWF inner := hwf.2 _ (chainLookup_mem _ _ _ hl)
      have hv1 : 1 ≤ v := hwfInner.2.2 _ hmem
      have hvle : v ≤ innerTotal inner := by
        have : v ∈ inner.map Prod.snd := List.mem_map_of_mem Prod.snd hmem
        exact List.le_sum_of_mem this
      have htpos : (0 : ℝ) < (innerTotal inner : ℝ) := by
        have h1 : 1 ≤ innerTotal inner := le_trans hv1 hvle
        exact_mod_cast Nat.lt_of_lt_of_le Nat.zero_lt_one h1
      apply Real.log_nonpos
      · positivity
      · rw [div_le_one htpos]
        exact_mod_cast hvle

lemma score_some_nonpos (order : Nat) (tokens : List String) (ch : MarkovChain)
    (hwf : chainWF ch) (s : ℝ)
    (h : (calculate_log_probability order tokens ch).2 = some s) : s ≤ 0 := by
  by_cases hlen : tokens.length < order + 1
  · rw [(score_none_iff order tokens ch).2 hlen] at h
    exact Option.noConfusion h
  · rw [score_some order tokens ch hlen] at h
    injection h with h2
    subst h2
    exact list_sum_nonpos _ (by
      intro x hx
      obtain ⟨i, _, rfl⟩ := List.mem_map.1 hx
      exact scoreStep_snd_nonpos order tokens ch i hwf)

/-! ### Characterization of call sequences -/

lemma runOps_order (st : DetectorState) (ops : List TrainOp) :
    (runOps st ops).order = st.order := by
  induction ops generalizing st with
  | nil => rfl
  | cons op rest ih =>
    cases op with
    | legit es => rw [runOps, ih, train_legitimate_order]
    | phish es => rw [runOps, ih, train_phishing_order]
    | det e => rw [runOps, ih, detect_fst]

lemma runOps_trained (st : DetectorState) (ops : List TrainOp) :
    (runOps st ops).trained = (st.trained || ops.any isPhishOp) := by
  induction ops generalizing st with
  | nil => simp [runOps]
  | cons op rest ih =>
    cases op with
    | legit es =>
      rw [runOps, ih, train_legitimate_trained]
      simp [isPhishOp]
    | phish es =>
      rw [runOps, ih, train_phishing_trained]
      simp [isPhishOp]
    | det e =>
      rw [runOps, ih, detect_fst]
      simp [isPhishOp]

lemma runOps_legit_chain (st : DetectorState) (ops : List TrainOp) :
    (runOps st ops).legitimate_chain
      = (legitEmails ops).foldl (fun ch e => build_chain st.order (normalizeEmail e) ch)
          st.legitimate_chain := by
  induction ops generalizing st with
  | nil => simp [runOps, legitEmails]
  | cons op rest ih =>
    cases op with
    | legit es =>
      rw [runOps, ih, train_legitimate_order, train_legitimate_chain]
      simp [legitEmails, List.foldl_append]
    | phish es =>
      rw [runOps, ih, train_phishing_order, train_phishing_legitimate_chain]
      simp [legitEmails]
    | det e =>
      rw [runOps, ih, detect_fst]
      simp [legitEmails]

lemma runOps_phish_chain (st : DetectorState) (ops : List TrainOp) :
    (runOps st ops).phishing_chain
      = (phishEmails ops).foldl (fun ch e => build_chain st.order (normalizeEmail e) ch)
          st.phishing_chain := by
  induction ops generalizing st with
  | nil => simp [runOps, phishEmails]
  | cons op rest ih =>
    cases op with
    | legit es =>
      rw [runOps, ih, train_legitimate_order, train_legitimate_phishing_chain]
      simp [phishEmails]
    | phish es =>
      rw [runOps, ih, train_phishing_order, train_phishing_chain]
      simp [phishEmails, List.foldl_append]
    | det e =>
      rw [runOps, ih, detect_fst]
      simp [phishEmails]

/-! ### Softmax facts -/

lemma softmaxConf_pos (a b : ℝ) : 0 < softmaxConf (some a) (some b) := by
  unfold softmaxConf expShift maxScore
  exact div_pos (Real.exp_pos _) (add_pos (Real.exp_pos _) (Real.exp_pos _))

lemma softmaxConf_lt_one (a b : ℝ) : softmaxConf (some a) (some b) < 1 := by
  unfold softmaxConf expShift maxScore
  rw [div_lt_one (add_pos (Real.exp_pos _) (Real.exp_pos _))]
  exact lt_add_of_pos_left _ (Real.exp_pos _)

lemma softmaxConf_tie (a : ℝ) : softmaxConf (some a) (some a) = 1 / 2 := by
  simp only [softmaxConf, expShift, maxScore]
  rw [max_self, sub_self, Real.exp_zero]
  norm_num

lemma detect_snd (st : DetectorState) (e : String) (ht : st.trained = true) :
    (detect st e).2 = some (mkResult st e) := by
  unfold detect
  rw [if_pos ht]

lemma detect_none_iff (st : DetectorState) (e : String) :
    (detect st e).2 = none ↔ st.trained = false := by
  unfold detect
  cases hb : st.trained <;> simp [hb]

/-- C2: over every sequence of calls on a fresh classifier, `detect` returns
the not-trained error (modelled as `none`, carrying no verdict, confidence,
scores or findings) iff the sequence contains no `train_phishing` call;
`train_legitimate` calls never enable detection and any `train_phishing`
call (with any email list, including `[]`) permanently enables it. -/
theorem detect_untrained_iff (order : Nat) (ops : List TrainOp) (e : String) :
    (detect (runOps (newDetector order) ops) e).2 = none
      ↔ ∀ op ∈ ops, isPhishOp op = false := by
  rw [detect_none_iff, runOps_trained]
  simp [newDetector, List.any_eq_false]

theorem detect_untrained_iff_witness :
    ((detect (runOps (newDetector 2) [TrainOp.legit ["hello there friend"]]) ("x")).2 = none
      ↔ ∀ op ∈ [TrainOp.legit ["hello there friend"]], isPhishOp op = false) :=
  detect_untrained_iff 2 [TrainOp.legit ["hello there friend"]] ("x")

/-- C8: on a trained classifier, `detect` leaves the entire state (both
chains with all their contexts and counts, both corpus counters and the
trained flag) unchanged; in particular scoring an unseen context never
inserts it into a chain (the membership test short-circuits before any
auto-inserting `defaultdict` access). -/
theorem detect_preserves_state (st : DetectorState) (e : String)
    (ht : st.trained = true) : (detect st e).1 = st :=
  detect_fst st e

theorem detect_preserves_state_witness :
    (train_phishing (newDetector 2) []).trained = true
      ∧ (detect (train_phishing (newDetector 2) []) ("x")).1
          = train_phishing (newDetector 2) [] :=
  ⟨rfl, detect_preserves_state (train_phishing (newDetector 2) []) ("x") rfl⟩

/-- C3: on a trained classifier, an email whose normalized token sequence is
shorter than order+1 (e.g. empty or whitespace-only text) is not rejected:
both scores are `-inf` (`none`) and the result has confidence exactly 50
and verdict LEGITIMATE. -/
theorem detect_short_input (st : DetectorState) (e : String)
    (ht : st.trained = true)
    (hlen : (normalizeEmail e).length < st.order + 1) :
    ∃ r, (detect st e).2 = some r ∧ r.confidence = 50 ∧ r.verdict = "LEGITIMATE"
      ∧ r.is_phishing = false ∧ r.legitimate_score = none ∧ r.phishing_score = none := by
  have hl : (calculate_log_probability st.order (normalizeEmail e) st.legitimate_chain).2
      = none := (score_none_iff _ _ _).2 hlen
  have hp : (calculate_log_probability st.order (normalizeEmail e) st.phishing_chain).2
      = none := (score_none_iff _ _ _).2 hlen
  refine ⟨mkResult st e, detect_snd st e ht, ?_, ?_, ?_, ?_, ?_⟩ <;>
    simp [mkResult, hl, hp] <;> norm_num

theorem detect_short_input_witness :
    (train_phishing (newDetector 2) []).trained = true
      ∧ (normalizeEmail "").length < (train_phishing (newDetector 2) []).order + 1
      ∧ ∃ r, (detect (train_phishing (newDetector 2) []) ("")).2 = some r
          ∧ r.confidence = 50 ∧ r.verdict = "LEGITIMATE" ∧ r.is_phishing = false
          ∧ r.legitimate_score = none ∧ r.phishing_score = none :=
  ⟨rfl, by decide, detect_short_input (train_phishing (newDetector 2) []) ("") rfl (by decide)⟩

lemma mkResult_equal_chains (st : DetectorState) (e : String)
    (heq : st.legitimate_chain = st.phishing_chain) :
    (mkResult st e).confidence = 50 ∧ (mkResult st e).is_phishing = false
      ∧ (mkResult st e).verdict = "LEGITIMATE"
      ∧ (mkResult st e).legitimate_score = (mkResult st e).phishing_score := by
  cases hsc : (calculate_log_probability st.order (normalizeEmail e) st.phishing_chain).2 with
  | none =>
    have hls : (calculate_log_probability st.order (normalizeEmail e) st.legitimate_chain).2
        = none := by rw [heq, hsc]
    refine ⟨?_, ?_, ?_, ?_⟩ <;> simp [mkResult, hls, hsc] <;> norm_num
  | some L =>
    have hls : (calculate_log_probability st.order (normalizeEmail e) st.legitimate_chain).2
        = some L := by rw [heq, hsc]
    have htie := softmaxConf_tie L
    have hgt : ¬ scoreGT (some L) (some L) := by simp [scoreGT]
    refine ⟨?_, ?_, ?_, ?_⟩ <;> simp [mkResult, hls, hsc, htie, hgt] <;> norm_num

/-- C10: training only `train_phishing` with an empty email list still puts
the classifier in the trained state with both chains empty, and every
subsequent `detect` returns verdict LEGITIMATE with confidence exactly 50
(short inputs hit the both-`-inf` fallback; longer inputs give both models
the same all-penalty score, the softmax ties and the tie-break is
legitimate). -/
theorem train_phishing_empty_detect (order : Nat) (e : String) :
    (train_phishing (newDetector order) []).trained = true
      ∧ (train_phishing (newDetector order) []).legitimate_chain = []
      ∧ (train_phishing (newDetector order) []).phishing_chain = []
      ∧ ∃ r, (detect (train_phishing (newDetector order) []) e).2 = some r
          ∧ r.confidence = 50 ∧ r.verdict = "LEGITIMATE" ∧ r.is_phishing = false
          ∧ r.legitimate_score = r.phishing_score := by
  have h := mkResult_equal_chains (train_phishing (newDetector order) []) e rfl
  exact ⟨rfl, rfl, rfl, mkResult _ e, detect_snd _ e rfl, h.1, h.2.2.1, h.2.1, h.2.2.2⟩

/-- C4: on a trained classifier, whenever not both scores are `-inf`,
`detect` computes the confidence as the numerically-stable two-way softmax
phishing probability times 100, returns verdict PHISHING iff the phishing
score strictly exceeds the legitimate score (ties favour LEGITIMATE), and
for two finite scores the confidence lies strictly between 0 and 100,
equalling 50 with verdict LEGITIMATE when the scores are equal. -/
theorem detect_softmax (st : DetectorState) (e : String) (ls ps : Option ℝ)
    (ht : st.trained = true)
    (hls : (calculate_log_probability st.order (normalizeEmail e) st.legitimate_chain).2 = ls)
    (hps : (calculate_log_probability st.order (normalizeEmail e) st.phishing_chain).2 = ps)
    (hnb : ¬ (ls = none ∧ ps = none)) :
    ∃ r, (detect st e).2 = some r
      ∧ r.confidence = softmaxConf ls ps * 100
      ∧ (r.verdict = "PHISHING" ↔ scoreGT ps ls)
      ∧ (∀ a b : ℝ, ls = some a → ps = some b → 0 < r.confidence ∧ r.confidence < 100)
      ∧ (∀ a : ℝ, ls = some a → ps = some a → r.confidence = 50 ∧ r.verdict = "LEGITIMATE") := by
  have hbi : (ls.isNone && ps.isNone) = false := by
    cases ls <;> cases ps <;> simp_all
  have hc : (mkResult st e).confidence = softmaxConf ls ps * 100 := by
    simp [mkResult, hls, hps, hbi]
  refine ⟨mkResult st e, detect_snd st e ht, hc, ?_, ?_, ?_⟩
  · by_cases hgt : scoreGT ps ls
    · simp [mkResult, hls, hps, hbi, hgt]
    · simp [mkResult, hls, hps, hbi, hgt]
  · intro a b hla hpb
    subst hla
    subst hpb
    rw [hc]
    constructor
    · exact mul_pos (softmaxConf_pos a b) (by norm_num)
    · have h2 := softmaxConf_lt_one a b
      nlinarith
  · intro a hla hpa
    subst hla
    subst hpa
    constructor
    · rw [hc, softmaxConf_tie]
      norm_num
    · have hgt : ¬ scoreGT (some a) (some a) := by simp [scoreGT]
      simp [mkResult, hls, hps, hbi, hgt]

noncomputable def w4state : DetectorState := train_phishing (newDetector 2) []

noncomputable def w4ls : Option ℝ :=
  (calculate_log_probability w4state.order (normalizeEmail "a b c d")
    w4state.legitimate_chain).2

noncomputable def w4ps : Option ℝ :=
  (calculate_log_probability w4state.order (normalizeEmail "a b c d")
    w4state.phishing_chain).2

theorem detect_softmax_witness :
    w4state.trained = true
      ∧ ∃ r, (detect w4state ("a b c d")).2 = some r
          ∧ r.confidence = softmaxConf w4ls w4ps * 100
          ∧ (r.verdict = "PHISHING" ↔ scoreGT w4ps w4ls)
          ∧ (∀ a b : ℝ, w4ls = some a → w4ps = some b →
              0 < r.confidence ∧ r.confidence < 100)
          ∧ (∀ a : ℝ, w4ls = some a → w4ps = some a →
              r.confidence = 50 ∧ r.verdict = "LEGITIMATE") := by
  refine ⟨rfl, detect_softmax w4state ("a b c d") w4ls w4ps rfl rfl rfl ?_⟩
  intro h
  exact absurd ((score_none_iff w4state.order (normalizeEmail "a b c d")
    w4state.legitimate_chain).1 h.1) (by decide)

lemma countOf_pos_iff (ch : MarkovChain) (ctx : List String) (t : String)
    (hwf : chainWF ch) :
    0 < countOf ch ctx t
      ↔ ∃ inner v, chainLookup ch ctx = some inner
          ∧ innerLookup inner t = some v := by
  unfold countOf
  cases hl : chainLookup ch ctx with
  | none => simp
  | some inner =>
    cases hv : innerLookup inner t with
    | none => simp [hv]
    | some v =>
      simp only [hv, Option.getD_some]
      have hwfInner : innerWF inner := hwf.2 _ (chainLookup_mem _ _ _ hl)
      have : 1 ≤ v := hwfInner.2.2 _ (innerLookup_mem _ _ _ hv)
      constructor
      · intro _
        exact ⟨inner, v, rfl, hv⟩
      · intro _
        omega

lemma scoreStep_closed (order : Nat) (tokens : List String) (ch : MarkovChain)
    (i : Nat) (hwf : chainWF ch) :
    (scoreStep order tokens ch i).2
      = if 0 < countOf ch (window order tokens i) (tokens.getD (i + order) "")
        then Real.log
          ((countOf ch (window order tokens i) (tokens.getD (i + order) "") : ℝ)
            / (totalOf ch (window order tokens i) : ℝ))
        else Real.log penalty := by
  cases hl : chainLookup ch (window order tokens i) with
  | none =>
    rw [scoreStep_snd_of_none order tokens ch i hl, if_neg]
    simp [countOf, hl]
  | some inner =>
    cases hv : innerLookup inner (tokens.getD (i + order) "") with
    | none =>
      have hv2 : innerLookup inner (tokens[i + order]?.getD "") = none := by simpa using hv
      rw [scoreStep_snd_of_miss order tokens ch i inner hl hv, if_neg]
      simp [countOf, hl, hv2]
    | some v =>
      have hv2 : innerLookup inner (tokens[i + order]?.getD "") = some v := by simpa using hv
      rw [scoreStep_snd_of_hit order tokens ch i inner v hl hv, if_pos]
      · simp [countOf, totalOf, hl, hv2]
      · rw [(countOf_pos_iff ch _ _ hwf)]
        exact ⟨inner, v, hl, hv⟩

/-- C5: the scorer returns `-inf` (`none`) iff the token sequence is shorter
than order+1; otherwise it returns a finite sum over the sliding windows of
`log(count/total)` for pairs the model has seen and `log(1e-10)` otherwise,
and the result is never positive. -/
theorem score_spec (order : Nat) (tokens : List String) (ch : MarkovChain)
    (hwf : chainWF ch) :
    ((calculate_log_probability order tokens ch).2 = none ↔ tokens.length < order + 1)
      ∧ (∀ s : ℝ, (calculate_log_probability order tokens ch).2 = some s →
          s = ((List.range (tokens.length - order)).map
                (fun i =>
                  if 0 < countOf ch (window order tokens i) (tokens.getD (i + order) "")
                  then Real.log
                    ((countOf ch (window order tokens i) (tokens.getD (i + order) "") : ℝ)
                      / (totalOf ch (window order tokens i) : ℝ))
                  else Real.log penalty)).sum
            ∧ s ≤ 0) := by
  refine ⟨score_none_iff order tokens ch, ?_⟩
  intro s hs
  refine ⟨?_, score_some_nonpos order tokens ch hwf s hs⟩
  by_cases hlen : tokens.length < order + 1
  · rw [(score_none_iff order tokens ch).2 hlen] at hs
    exact Option.noConfusion hs
  · rw [score_some order tokens ch hlen] at hs
    injection hs with h2
    rw [← h2]
    congr 1
    apply List.map_congr_left
    intro i _
    exact scoreStep_closed order tokens ch i hwf

theorem score_spec_witness :
    chainWF (chainIncr [] (["a"]) ("b"))
      ∧ ((calculate_log_probability 1 ["a", "b", "c"] (chainIncr [] (["a"]) ("b"))).2 = none
          ↔ (["a", "b", "c"] : List String).length < 1 + 1) :=
  ⟨by decide, (score_spec 1 ["a", "b", "c"] (chainIncr [] (["a"]) ("b")) (by decide)).1⟩

lemma countOf_nil (ctx : List String) (t : String) : countOf [] ctx t = 0 := rfl

lemma totalOf_nil (ctx : List String) : totalOf [] ctx = 0 := rfl

lemma countOf_corpus (order : Nat) (emails : List String) (ctx : List String) (t : String) :
    countOf (emails.foldl (fun a e => build_chain order (normalizeEmail e) a) []) ctx t
      = obsPair order emails ctx t := by
  have h := countOf_trainFold order emails [] ctx t
  rw [countOf_nil] at h
  simpa using h

lemma totalOf_corpus (order : Nat) (emails : List String) (ctx : List String) :
    totalOf (emails.foldl (fun a e => build_chain order (normalizeEmail e) a) []) ctx
      = obsTotal order emails ctx := by
  have h := totalOf_trainFold order emails [] ctx
  rw [totalOf_nil] at h
  simpa using h

/-- C6: feeding the same training corpus in any order (any interleaving of
training calls whose per-label email sequences are permutations of each
other) produces chains with identical counts for every context/next-token
pair: training is purely additive and commutative. -/
theorem training_perm_counts (order : Nat) (ops1 ops2 : List TrainOp)
    (hl : (legitEmails ops1).Perm (legitEmails ops2))
    (hp : (phishEmails ops1).Perm (phishEmails ops2)) :
    ∀ (ctx : List String) (t : String),
      countOf (runOps (newDetector order) ops1).legitimate_chain ctx t
          = countOf (runOps (newDetector order) ops2).legitimate_chain ctx t
        ∧ countOf (runOps (newDetector order) ops1).phishing_chain ctx t
          = countOf (runOps (newDetector order) ops2).phishing_chain ctx t := by
  intro ctx t
  have hsum1 : obsPair order (legitEmails ops1) ctx t
      = obsPair order (legitEmails ops2) ctx t := by
    unfold obsPair
    exact (hl.map _).sum_eq
  have hsum2 : obsPair order (phishEmails ops1) ctx t
      = obsPair order (phishEmails ops2) ctx t := by
    unfold obsPair
    exact (hp.map _).sum_eq
  constructor
  · rw [runOps_legit_chain, runOps_legit_chain]
    exact (countOf_corpus order (legitEmails ops1) ctx t).trans
      (hsum1.trans (countOf_corpus order (legitEmails ops2) ctx t).symm)
  · rw [runOps_phish_chain, runOps_phish_chain]
    exact (countOf_corpus order (phishEmails ops1) ctx t).trans
      (hsum2.trans (countOf_corpus order (phishEmails ops2) ctx t).symm)

theorem training_perm_counts_witness :
    (legitEmails [TrainOp.legit ["a b", "c d"]]).Perm
        (legitEmails [TrainOp.legit ["c d"], TrainOp.legit ["a b"]])
      ∧ (phishEmails [TrainOp.legit ["a b", "c d"]]).Perm
          (phishEmails [TrainOp.legit ["c d"], TrainOp.legit ["a b"]])
      ∧ (countOf (runOps (newDetector 1) [TrainOp.legit ["a b", "c d"]]).legitimate_chain
            (["a"]) ("b")
          = countOf (runOps (newDetector 1)
              [TrainOp.legit ["c d"], TrainOp.legit ["a b"]]).legitimate_chain
            (["a"]) ("b")) :=
  ⟨by decide, by decide,
    (training_perm_counts 1 [TrainOp.legit ["a b", "c d"]]
      [TrainOp.legit ["c d"], TrainOp.legit ["a b"]] (by decide) (by decide)
      (["a"]) ("b")).1⟩

lemma innerLookup_of_nodup (inner : NextMap) (q : String × Nat)
    (hnd : (inner.map Prod.fst).Nodup) (hq : q ∈ inner) :
    innerLookup inner q.1 = some q.2 := by
  induction inner with
  | nil => exact absurd hq (List.not_mem_nil q)
  | cons p r ih =>
    obtain ⟨k, v⟩ := p
    rw [List.map_cons, List.nodup_cons] at hnd
    rcases List.mem_cons.1 hq with h1 | h2
    · subst h1
      exact innerLookup_cons_self _ _ _
    · have hk : k ≠ q.1 := by
        intro hkq
        exact hnd.1 (List.mem_map.2 ⟨q, h2, hkq.symm⟩)
      rw [innerLookup_cons_ne _ _ _ _ hk]
      exact ih hnd.2 h2

lemma list_sum_div (l : List ℝ) (T : ℝ) : (l.map (fun x => x / T)).sum = l.sum / T := by
  induction l with
  | nil => simp
  | cons a r ih => simp [ih, add_div]

lemma innerTotal_pos (inner : NextMap) (h1 : inner ≠ [])
    (h2 : ∀ q ∈ inner, 1 ≤ q.2) : 0 < innerTotal inner := by
  cases inner with
  | nil => exact absurd rfl h1
  | cons q r =>
    have := h2 q (List.mem_cons_self _ _)
    unfold innerTotal
    rw [List.map_cons, List.sum_cons]
    omega

lemma innerProbSum (inner : NextMap) (h1 : inner ≠ [])
    (h2 : ∀ q ∈ inner, 1 ≤ q.2) :
    (inner.map (fun q => (q.2 : ℝ) / (innerTotal inner : ℝ))).sum = 1 := by
  have hT : 0 < innerTotal inner := innerTotal_pos inner h1 h2
  have hmap : inner.map (fun q => (q.2 : ℝ) / (innerTotal inner : ℝ))
      = (inner.map (fun q => (q.2 : ℝ))).map (fun x => x / (innerTotal inner : ℝ)) := by
    rw [List.map_map]
    rfl
  rw [hmap, list_sum_div]
  have hcast : (inner.map (fun q => (q.2 : ℝ))).sum = ((innerTotal inner : ℕ) : ℝ) := by
    unfold innerTotal
    rw [Nat.cast_list_sum, List.map_map]
    rfl
  rw [hcast]
  exact div_self (by exact_mod_cast Nat.pos_iff_ne_zero.1 hT)

lemma chain_inv_general (order : Nat) (emails : List String) (ch : MarkovChain)
    (hch : ch = emails.foldl (fun a e => build_chain order (normalizeEmail e) a) []) :
    ∀ ctx inner, chainLookup ch ctx = some inner →
      (∃ q ∈ inner, 1 ≤ q.2)
        ∧ innerTotal inner = (inner.map (fun q => countOf ch ctx q.1)).sum
        ∧ innerTotal inner = obsTotal order emails ctx
        ∧ (inner.map (fun q => (q.2 : ℝ) / (innerTotal inner : ℝ))).sum = 1 := by
  intro ctx inner hlk
  have hwf : chainWF ch := by
    rw [hch]
    exact chainWF_trainFold order emails [] ⟨by simp, by simp⟩
  have hwfInner : innerWF inner := hwf.2 _ (chainLookup_mem _ _ _ hlk)
  obtain ⟨hne, hnd, hcnt⟩ := hwfInner
  refine ⟨?_, ?_, ?_, innerProbSum inner hne hcnt⟩
  · cases inner with
    | nil => exact absurd rfl hne
    | cons q r => exact ⟨q, List.mem_cons_self _ _, hcnt q (List.mem_cons_self _ _)⟩
  · unfold innerTotal
    congr 1
    apply List.map_congr_left
    intro q hq
    simp only [countOf, hlk]
    rw [innerLookup_of_nodup inner q hnd hq]
    rfl
  · have h := totalOf_corpus order emails ctx
    rw [← hch] at h
    simp only [totalOf, hlk] at h
    exact h

/-- C7: after any sequence of calls, every context present in either chain
has at least one next-token entry with count ≥ 1, its total count equals
both the sum of its next-token counts and the number of training-time
observations of that context in the corresponding corpus, and the derived
probabilities `count/total` over its observed next tokens sum to exactly 1. -/
theorem chain_invariants (order : Nat) (ops : List TrainOp) :
    (∀ ctx inner,
        chainLookup (runOps (newDetector order) ops).legitimate_chain ctx = some inner →
        (∃ q ∈ inner, 1 ≤ q.2)
          ∧ innerTotal inner
              = (inner.map (fun q =>
                  countOf (runOps (newDetector order) ops).legitimate_chain ctx q.1)).sum
          ∧ innerTotal inner = obsTotal order (legitEmails ops) ctx
          ∧ (inner.map (fun q => (q.2 : ℝ) / (innerTotal inner : ℝ))).sum = 1)
      ∧ (∀ ctx inner,
          chainLookup (runOps (newDetector order) ops).phishing_chain ctx = some inner →
          (∃ q ∈ inner, 1 ≤ q.2)
            ∧ innerTotal inner
                = (inner.map (fun q =>
                    countOf (runOps (newDetector order) ops).phishing_chain ctx q.1)).sum
            ∧ innerTotal inner = obsTotal order (phishEmails ops) ctx
            ∧ (inner.map (fun q => (q.2 : ℝ) / (innerTotal inner : ℝ))).sum = 1) :=
  ⟨chain_inv_general order (legitEmails ops) _ (by rw [runOps_legit_chain]; rfl),
   chain_inv_general order (phishEmails ops) _ (by rw [runOps_phish_chain]; rfl)⟩

theorem chain_invariants_witness :
    chainLookup (runOps (newDetector 1)
        [TrainOp.legit ["a b a b a"]]).legitimate_chain (["a"]) = some [(("b"), 2)]
      ∧ ((∃ q ∈ [(("b"), 2)], 1 ≤ q.2)
          ∧ innerTotal [(("b"), 2)]
              = ([(("b"), 2)].map (fun q =>
                  countOf (runOps (newDetector 1)
                    [TrainOp.legit ["a b a b a"]]).legitimate_chain (["a"]) q.1)).sum
          ∧ innerTotal [(("b"), 2)]
              = obsTotal 1 (legitEmails [TrainOp.legit ["a b a b a"]]) (["a"])
          ∧ ([(("b"), 2)].map (fun q =>
              (q.2 : ℝ) / (innerTotal [(("b"), 2)] : ℝ))).sum = 1) :=
  ⟨by decide,
    (chain_invariants 1 [TrainOp.legit ["a b a b a"]]).1 (["a"]) [(("b"), 2)] (by decide)⟩

lemma tokAux_shape (l acc : List Char) (hacc : ∀ c ∈ acc, wordChar c = true) :
    ∀ t ∈ tokAux acc l,
      (∀ c ∈ t.toList, wordChar c = true) ∨ t.toList.length = 1 := by
  induction l generalizing acc with
  | nil =>
    intro t ht
    cases acc with
    | nil => simp [tokAux] at ht
    | cons a as =>
      simp only [tokAux, List.mem_singleton] at ht
      subst ht
      left
      intro c hc
      exact hacc c (List.mem_reverse.1 hc)
  | cons c0 cs ih =>
    intro t ht
    by_cases hw : wordChar c0 = true
    · refine ih (c0 :: acc) ?_ t (by simpa [tokAux, hw] using ht)
      intro c hc
      rcases List.mem_cons.1 hc with h1 | h2
      · subst h1; exact hw
      · exact hacc c h2
    · simp only [tokAux, if_neg hw] at ht
      rcases List.mem_append.1 ht with hf | hrest
      · cases acc with
        | nil => simp at hf
        | cons a as =>
          simp only [List.mem_singleton] at hf
          subst hf
          left
          intro c hc
          exact hacc c (List.mem_reverse.1 hc)
      · by_cases hs : pySpace c0 = true
        · rw [if_pos hs] at hrest
          exact ih [] (by simp) t hrest
        · rw [if_neg hs] at hrest
          rcases List.mem_cons.1 hrest with h1 | h2
          · subst h1
            right
            rfl
          · exact ih [] (by simp) t h2

lemma normalizeEmail_token_shape (s t : String) (ht : t ∈ normalizeEmail s) :
    (∀ c ∈ t.toList, wordChar c = true) ∨ t.toList.length = 1 :=
  tokAux_shape _ [] (by simp) t ht

/-- C1 counterexample: normalizing the spec's literal example does NOT
produce `<EMAIL>`, `<URL>` or `<MONEY>` as atomic tokens — the tokenizer
`\w+|[^\w\s]` re-splits every placeholder. -/
theorem placeholder_not_atomic_counterexample :
    ¬ ("<EMAIL>" ∈ normalizeEmail ("Contact me@test.com or visit http://evil.tk now, pay $500")
        ∧ "<URL>" ∈ normalizeEmail ("Contact me@test.com or visit http://evil.tk now, pay $500")
        ∧ "<MONEY>" ∈
            normalizeEmail ("Contact me@test.com or visit http://evil.tk now, pay $500")) := by
  decide

/-- C1 (amended): masked entities never appear as single atomic tokens: a
token is either a maximal `\w+` run or a single non-word character, so no
token of any normalization ever equals `<URL>`, `<EMAIL>`, `<MONEY>` or
`<NUMBER>`; each placeholder is re-split into the three tokens `<`, NAME,
`>`.  In particular the spec's example normalizes to the listed sequence,
with the triples `<`,`EMAIL`,`>` then `<`,`URL`,`>` then `<`,`MONEY`,`>` in
left-to-right order and no literal email/URL/dollar text surviving. -/
theorem placeholder_resplit :
    (∀ s : String, "<URL>" ∉ normalizeEmail s ∧ "<EMAIL>" ∉ normalizeEmail s
        ∧ "<MONEY>" ∉ normalizeEmail s ∧ "<NUMBER>" ∉ normalizeEmail s)
      ∧ normalizeEmail ("Contact me@test.com or visit http://evil.tk now, pay $500")
          = ["contact", "<", "EMAIL", ">", "or", "visit", "<", "URL", ">", "now", ",",
             "pay", "<", "MONEY", ">"] := by
  constructor
  · intro s
    refine ⟨?_, ?_, ?_, ?_⟩ <;>
    · intro hmem
      rcases normalizeEmail_token_shape s _ hmem with h | hlen
      · exact absurd (h '<' (by decide)) (by decide)
      · exact absurd hlen (by decide)
  · decide

/-- C9: feature extraction on the spec's literal example yields exactly the
findings for the urgency phrases "urgent" and "verify", the suspicious
domain marker ".tk" and the sensitive-info term "password", and contains no
multiple-URLs finding (only one URL is present, and that finding requires
more than two). -/
theorem extract_features_literal :
    extract_features ("URGENT: verify your password now at http://x.tk")
        = ["Urgency keyword: \x27urgent\x27", "Urgency keyword: \x27verify\x27",
           "Suspicious domain: .tk", "Requests sensitive info: \x27password\x27"]
      ∧ "Urgency keyword: \x27urgent\x27"
          ∈ extract_features ("URGENT: verify your password now at http://x.tk")
      ∧ "Urgency keyword: \x27verify\x27"
          ∈ extract_features ("URGENT: verify your password now at http://x.tk")
      ∧ "Requests sensitive info: \x27password\x27"
          ∈ extract_features ("URGENT: verify your password now at http://x.tk")
      ∧ "Suspicious domain: .tk"
          ∈ extract_features ("URGENT: verify your password now at http://x.tk")
      ∧ ∀ f ∈ extract_features ("URGENT: verify your password now at http://x.tk"),
          ¬ (("Multiple URLs (").toList.isPrefixOf f.toList = true) := by
  decide
